import Mathlib

/-!
Shallow embedding of the email-threading core of the `misc-utils` repository.

The repository holds two variants of a pst2pdf utility
(`src/pst2pdf/index.js`, the single-file variant, and `src/unnamed/part_000`,
the batch variant).  Both contain textually identical copies of the three
functions this development verifies: `normalizeSubject`, `parseEmails` and
`groupByThread`.  We embed each variant's functions in its own namespace
(`pst2pdf`, `part000`) over a shared model of the JavaScript runtime
primitives they use (string trimming, the reply/forward-marker regex,
`toLowerCase`, insertion-ordered `Map`, and the stable `Array.prototype.sort`).

Strings are modelled as Lean `String`/`List Char`; Dates as `Int`
(milliseconds since the epoch, the value `a.date - b.date` compares in the
source); the external `mailparser` output is modelled as a `Mail` record
attached to each input file, with `none` standing for a thrown parse error.
-/

namespace PstUtils

/-! ### JavaScript runtime primitives shared by both source files -/

/-- Characters matched by the JS regex class `\s` and removed by
`String.prototype.trim` (ECMAScript WhiteSpace ∪ LineTerminator). -/
def isJsSpace (c : Char) : Bool :=
  c = ' ' || c = '\t' || c = '\n' || c.toNat = 11 || c.toNat = 12 || c = '\r' ||
  c.toNat = 0xa0 || c.toNat = 0x1680 ||
  (0x2000 ≤ c.toNat && c.toNat ≤ 0x200a) ||
  c.toNat = 0x2028 || c.toNat = 0x2029 || c.toNat = 0x202f ||
  c.toNat = 0x205f || c.toNat = 0x3000 || c.toNat = 0xfeff

/-- Greedy `\s*`: drop leading JS whitespace. -/
def dropSpaces (l : List Char) : List Char := l.dropWhile isJsSpace

/-- Model of `String.prototype.trim`: strip JS whitespace from both ends. -/
def jsTrim (l : List Char) : List Char :=
  ((l.dropWhile isJsSpace).reverse.dropWhile isJsSpace).reverse

/-- Model of `String.prototype.toLowerCase` on the subject keys.  The letters
relevant to the sources' grouping keys are case-folded per character; this is
exact on ASCII. -/
def jsToLower (s : String) : String := String.mk (s.data.map Char.toLower)

/-- Tail of the regex `/^\s*(re|fw|fwd)\s*:\s*/i` after the marker word:
`\s*:\s*`.  Returns the remainder after the match, or `none` when the colon
is missing.  (Greedy `\s*` before a colon never needs backtracking since a
colon is not whitespace.) -/
def afterMarker (rest : List Char) : Option (List Char) :=
  match dropSpaces rest with
  | ':' :: r => some (dropSpaces r)
  | _ => none

/-- The alternation `(re|fw|fwd)` of the regex, followed by `\s*:\s*`, with
the regex engine's ordered-alternation backtracking: `re` first, then `fw`,
then (when the colon check after `fw` fails) `fwd`.  Case-insensitive via the
regex `i` flag, which on these ASCII letters is per-character lowering. -/
def matchReFwd (s : List Char) : Option (List Char) :=
  match s with
  | c1 :: c2 :: rest =>
    if c1.toLower = 'r' ∧ c2.toLower = 'e' then afterMarker rest
    else if c1.toLower = 'f' ∧ c2.toLower = 'w' then
      match afterMarker rest with
      | some r => some r
      | none =>
        match rest with
        | c3 :: rest2 => if c3.toLower = 'd' then afterMarker rest2 else none
        | [] => none
    else none
  | _ => none

/-- Model of `s.replace(/^\s*(re|fw|fwd)\s*:\s*/i, "")`: when the anchored
regex matches, the matched portion is removed; otherwise the string is
unchanged. -/
def stripReFwd (s : List Char) : List Char :=
  match matchReFwd (dropSpaces s) with
  | some r => r
  | none => s

/-! ### Shared data model -/

/-- The "no subject" sentinel string of both sources. -/
def noSubject : String := "(no subject)"

/-- The epoch sentinel `new Date(0)` in milliseconds. -/
def epochMs : Int := 0

/-- The record pushed by `parseEmails` for each successfully parsed file
(the body-text field, used only by the renderer, is outside the verified
core and omitted). -/
structure Email where
  file : String
  subject : String
  normalizedSubject : String
  date : Int
  «from» : String
  «to» : String
  cc : String
  deriving DecidableEq, Repr

/-- Model of the external parser's (`mailparser.simpleParser`) output object:
the fields the loader reads.  `date = none` models an absent or unparseable
date (the parser yields no date); the address fields hold the `.text`
rendering when the corresponding object is present. -/
structure Mail where
  subject : Option String
  date : Option Int
  «from» : Option String
  «to» : Option String
  cc : Option String
  deriving DecidableEq, Repr

/-- One extracted `.eml` file together with the outcome of reading and
parsing it: `parsed = none` models the `try` block throwing (unreadable or
unparseable file). -/
structure EmlFile where
  path : String
  parsed : Option Mail
  deriving DecidableEq, Repr

/-- A thread object `{subject, emails}` as built by `groupByThread`. -/
structure Thread where
  subject : String
  emails : List Email
  deriving DecidableEq, Repr

/-- Model of `Array.prototype.sort` with the comparator
`(a, b) => key(a) - key(b)`: ES2019 requires the sort to be stable, and for
this consistent comparator the result is the unique ascending stable
reordering, which insertion sort computes. -/
def jsSortBy {α : Type} (key : α → Int) (l : List α) : List α :=
  List.insertionSort (fun a b => key a ≤ key b) l

end PstUtils

namespace PstUtils.pst2pdf

/-- Embeds `normalizeSubject` of `src/pst2pdf/index.js` (lines 37-43):
falsy input (absent or empty) gives the sentinel, otherwise trim, strip the
anchored reply/forward marker once, and fall back to the sentinel when the
result is empty. -/
def normalizeSubject (subj : Option String) : String :=
  match subj with
  | none => noSubject
  | some subj =>
    if subj = "" then noSubject
    else
      let s := jsTrim subj.data
      let s2 := stripReFwd s
      if s2 = [] then noSubject else String.mk s2

/-- Model of `a || b` on JS strings: the empty string is falsy. -/
def jsStrOr (s : Option String) (d : String) : String :=
  match s with
  | none => d
  | some s => if s = "" then d else s

/-- The record construction inside the `try` block of `parseEmails`
(lines 87-96): field fallbacks for subject, date and the address strings. -/
def mkEmail (file : String) (mail : Mail) : Email :=
  { file := file
    subject := jsStrOr mail.subject noSubject
    normalizedSubject := normalizeSubject mail.subject
    date := mail.date.getD epochMs
    «from» := mail.«from».getD ""
    «to» := mail.«to».getD ""
    cc := mail.cc.getD "" }

/-- The loop of `parseEmails` (lines 79-104), instrumented to also return
the files the loop attempted (read inside the loop body) and the files whose
failure was logged by `console.warn`.  `acc` holds the already-pushed records
in reverse; the break check `maxEmails && emails.length >= maxEmails` runs
before each attempt. -/
def parseEmailsLoop (maxEmails : Nat) :
    List EmlFile → List Email → List Email × List EmlFile × List EmlFile
  | [], acc => (acc.reverse, [], [])
  | f :: rest, acc =>
    if maxEmails ≠ 0 ∧ maxEmails ≤ acc.length then (acc.reverse, [], [])
    else
      match f.parsed with
      | some mail =>
        let r := parseEmailsLoop maxEmails rest (mkEmail f.path mail :: acc)
        (r.1, f :: r.2.1, r.2.2)
      | none =>
        let r := parseEmailsLoop maxEmails rest acc
        (r.1, f :: r.2.1, f :: r.2.2)

/-- The records returned by the loader `parseEmails`. -/
def parseEmails (files : List EmlFile) (maxEmails : Nat) : List Email :=
  (parseEmailsLoop maxEmails files []).1

/-- The files the loader attempted (in order). -/
def attemptedFiles (files : List EmlFile) (maxEmails : Nat) : List EmlFile :=
  (parseEmailsLoop maxEmails files []).2.1

/-- The files whose parse failure was logged as a warning. -/
def warnedFiles (files : List EmlFile) (maxEmails : Nat) : List EmlFile :=
  (parseEmailsLoop maxEmails files []).2.2

/-- The grouping key `e.normalizedSubject.toLowerCase()` of
`groupByThread` (line 118). -/
def threadKey (e : Email) : String := jsToLower e.normalizedSubject

/-- One step of the `Map` updates in `groupByThread` (lines 119-120): a JS
`Map` keeps keys in insertion order; pushing appends to the keyed array. -/
def insertIntoMap (m : List (String × List Email)) (key : String) (e : Email) :
    List (String × List Email) :=
  match m with
  | [] => [(key, [e])]
  | (k, arr) :: rest =>
    if k = key then (k, arr ++ [e]) :: rest
    else (k, arr) :: insertIntoMap rest key e

/-- The map-building loop of `groupByThread` (lines 116-121). -/
def buildThreadMap (emails : List Email) : List (String × List Email) :=
  emails.foldl (fun m e => insertIntoMap m (threadKey e) e) []

/-- Per-group processing of `groupByThread` (lines 123-128): sort the
group's array by date (stably), then build `{subject: arr[0]
.normalizedSubject, emails: arr}`.  The empty case is unreachable (a JS
`arr[0]` on an empty group would throw; groups are created non-empty). -/
def mkThread (arr : List Email) : Thread :=
  { subject :=
      match jsSortBy Email.date arr with
      | [] => ""
      | e :: _ => e.normalizedSubject
    emails := jsSortBy Email.date arr }

/-- The sort key `a.emails[0].date` of the final thread sort (line 130). -/
def threadDate (t : Thread) : Int :=
  match t.emails with
  | [] => epochMs
  | e :: _ => e.date

/-- Embeds `groupByThread` of `src/pst2pdf/index.js` (lines 115-132). -/
def groupByThread (emails : List Email) : List Thread :=
  jsSortBy threadDate ((buildThreadMap emails).map (fun p => mkThread p.2))

end PstUtils.pst2pdf

namespace PstUtils.part000

/-- Embeds `normalizeSubject` of `src/unnamed/part_000` (lines 40-46); the
function body is textually identical to the one in `src/pst2pdf/index.js`. -/
def normalizeSubject (subj : Option String) : String :=
  match subj with
  | none => noSubject
  | some subj =>
    if subj = "" then noSubject
    else
      let s := jsTrim subj.data
      let s2 := stripReFwd s
      if s2 = [] then noSubject else String.mk s2

/-- The grouping key `e.normalizedSubject.toLowerCase()` of
`groupByThread` in `src/unnamed/part_000` (line 134). -/
def threadKey (e : Email) : String := jsToLower e.normalizedSubject

/-- One step of the `Map` updates in `groupByThread` of `src/unnamed/part_000`
(lines 135-136). -/
def insertIntoMap (m : List (String × List Email)) (key : String) (e : Email) :
    List (String × List Email) :=
  match m with
  | [] => [(key, [e])]
  | (k, arr) :: rest =>
    if k = key then (k, arr ++ [e]) :: rest
    else (k, arr) :: insertIntoMap rest key e

/-- The map-building loop of `groupByThread` of `src/unnamed/part_000`
(lines 132-137). -/
def buildThreadMap (emails : List Email) : List (String × List Email) :=
  emails.foldl (fun m e => insertIntoMap m (threadKey e) e) []

/-- Per-group processing of `groupByThread` of `src/unnamed/part_000`
(lines 139-144). -/
def mkThread (arr : List Email) : Thread :=
  { subject :=
      match jsSortBy Email.date arr with
      | [] => ""
      | e :: _ => e.normalizedSubject
    emails := jsSortBy Email.date arr }

/-- The sort key `a.emails[0].date` of the final thread sort of
`src/unnamed/part_000` (line 146). -/
def threadDate (t : Thread) : Int :=
  match t.emails with
  | [] => epochMs
  | e :: _ => e.date

/-- Embeds `groupByThread` of `src/unnamed/part_000` (lines 131-148); the
function body is textually identical to the one in `src/pst2pdf/index.js`. -/
def groupByThread (emails : List Email) : List Thread :=
  jsSortBy threadDate ((buildThreadMap emails).map (fun p => mkThread p.2))

end PstUtils.part000

namespace PstUtils

/-! ### Lemmas about the subject normalizer -/

theorem jsTrim_eq_nil {l : List Char} (h : ∀ c ∈ l, isJsSpace c = true) :
    jsTrim l = [] := by
  unfold jsTrim
  rw [List.dropWhile_eq_nil_iff.mpr h]
  simp

theorem stripReFwd_nil : stripReFwd [] = [] := rfl

theorem normalizeSubject_of_all_space {s : String}
    (h : ∀ c ∈ s.data, isJsSpace c = true) :
    pst2pdf.normalizeSubject (some s) = noSubject := by
  unfold pst2pdf.normalizeSubject
  by_cases hs : s = ""
  · simp [hs]
  · simp only [hs, if_false]
    rw [jsTrim_eq_nil h, stripReFwd_nil]
    simp

theorem normalizeSubject_of_strip_nil {s : String}
    (h : stripReFwd (jsTrim s.data) = []) :
    pst2pdf.normalizeSubject (some s) = noSubject := by
  unfold pst2pdf.normalizeSubject
  by_cases hs : s = ""
  · simp [hs]
  · simp [hs, h]

theorem normalizeSubject_of_strip_ne_nil {s : String}
    (h : stripReFwd (jsTrim s.data) ≠ []) :
    pst2pdf.normalizeSubject (some s) = String.mk (stripReFwd (jsTrim s.data)) := by
  unfold pst2pdf.normalizeSubject
  by_cases hs : s = ""
  · subst hs
    exact absurd rfl h
  · simp [hs, h]

end PstUtils

open PstUtils PstUtils.pst2pdf in
/-- C1: the subject normalizer maps absent, empty or whitespace-only input
to the sentinel "(no subject)"; otherwise it trims the subject and strips at
most one leading case-insensitive reply/forward marker (`re`, `fw` or `fwd`
followed by a colon, with optional surrounding whitespace), falling back to
the sentinel when the remainder is empty; in particular
`normalize("Re: Hello") = normalize("RE:   Hello") = normalize("Hello") =
"Hello"`, `normalize(undefined) = normalize("") = normalize("   ") =
"(no subject)"`, and `normalize("Re: Fwd: X") = "Fwd: X"`. -/
theorem C1_subject_normalizer :
    normalizeSubject none = noSubject ∧
    (∀ s : String, (∀ c ∈ s.data, isJsSpace c = true) →
      normalizeSubject (some s) = noSubject) ∧
    (∀ s : String, stripReFwd (jsTrim s.data) = [] →
      normalizeSubject (some s) = noSubject) ∧
    (∀ s : String, stripReFwd (jsTrim s.data) ≠ [] →
      normalizeSubject (some s) = String.mk (stripReFwd (jsTrim s.data))) ∧
    normalizeSubject (some "Re: Hello") = "Hello" ∧
    normalizeSubject (some "RE:   Hello") = "Hello" ∧
    normalizeSubject (some "Hello") = "Hello" ∧
    normalizeSubject (some "") = noSubject ∧
    normalizeSubject (some "   ") = noSubject ∧
    normalizeSubject (some "Re: Fwd: X") = "Fwd: X" := by
  refine ⟨rfl, fun s h => normalizeSubject_of_all_space h,
    fun s h => normalizeSubject_of_strip_nil h,
    fun s h => normalizeSubject_of_strip_ne_nil h, ?_, ?_, ?_, ?_, ?_, ?_⟩
  all_goals decide

open PstUtils PstUtils.pst2pdf in
/-- Witness for C1: the universally quantified clauses applied at the
concrete subjects " \t " (whitespace-only), "Re:" (stripping empties the
subject) and "Fwd:  Hi" (marker stripped, nonempty remainder). -/
theorem C1_subject_normalizer_witness :
    normalizeSubject (some " \t ") = noSubject ∧
    normalizeSubject (some "Re:") = noSubject ∧
    normalizeSubject (some "Fwd:  Hi") = String.mk (stripReFwd (jsTrim "Fwd:  Hi".data)) := by
  refine ⟨C1_subject_normalizer.2.1 " \t " (by decide),
    C1_subject_normalizer.2.2.1 "Re:" (by decide),
    C1_subject_normalizer.2.2.2.1 "Fwd:  Hi" (by decide)⟩

namespace PstUtils

/-! ### Lemmas about the stable sort model -/

theorem jsSortBy_perm {α : Type} (key : α → Int) (l : List α) :
    List.Perm (jsSortBy key l) l :=
  List.perm_insertionSort _ l

theorem jsSortBy_mem {α : Type} {key : α → Int} {l : List α} {x : α} :
    x ∈ jsSortBy key l ↔ x ∈ l :=
  (jsSortBy_perm key l).mem_iff

theorem jsSortBy_sorted {α : Type} (key : α → Int) (l : List α) :
    (jsSortBy key l).Pairwise (fun a b => key a ≤ key b) := by
  haveI : IsTotal α (fun a b => key a ≤ key b) :=
    ⟨fun a b => Int.le_total (key a) (key b)⟩
  haveI : IsTrans α (fun a b => key a ≤ key b) :=
    ⟨fun _ _ _ hab hbc => le_trans hab hbc⟩
  exact List.sorted_insertionSort _ l

theorem filter_orderedInsert_key {α : Type} (key : α → Int) (d : Int) (a : α)
    (l : List α) :
    (List.orderedInsert (fun x y => key x ≤ key y) a l).filter
        (fun x => decide (key x = d)) =
      if key a = d then a :: l.filter (fun x => decide (key x = d))
      else l.filter (fun x => decide (key x = d)) := by
  induction l with
  | nil => by_cases h : key a = d <;> simp [List.orderedInsert, h]
  | cons b l ih =>
    by_cases hab : key a ≤ key b
    · rw [List.orderedInsert, if_pos hab]
      by_cases h : key a = d <;> simp [List.filter_cons, h]
    · rw [List.orderedInsert, if_neg hab]
      by_cases h : key a = d
      · have hb : ¬ (key b = d) := by
          intro hbd
          exact hab (le_of_eq (hbd.trans h.symm).symm)
        simp [List.filter_cons, hb, ih, h]
      · simp [List.filter_cons, ih, h]

/-- Stability of the sort: the elements whose key equals any fixed value `d`
come out in exactly the order they went in. -/
theorem jsSortBy_filter_key {α : Type} (key : α → Int) (d : Int) (l : List α) :
    (jsSortBy key l).filter (fun x => decide (key x = d)) =
      l.filter (fun x => decide (key x = d)) := by
  induction l with
  | nil => rfl
  | cons a l ih =>
    have step : jsSortBy key (a :: l) =
        List.orderedInsert (fun x y => key x ≤ key y) a (jsSortBy key l) := rfl
    rw [step, filter_orderedInsert_key]
    by_cases h : key a = d <;> simp [List.filter_cons, h, ih]

theorem pairwise_orderedInsert_key {α : Type} (key : α → Int) (Q : α → α → Prop)
    (a : α) {l : List α}
    (hl : l.Pairwise (fun x y => key x = key y → Q x y))
    (ha : ∀ b ∈ l, key a = key b → Q a b) :
    (List.orderedInsert (fun x y => key x ≤ key y) a l).Pairwise
      (fun x y => key x = key y → Q x y) := by
  induction l with
  | nil => simp [List.orderedInsert]
  | cons b l ih =>
    by_cases hab : key a ≤ key b
    · rw [List.orderedInsert, if_pos hab]
      exact List.Pairwise.cons (fun c hc => ha c hc) hl
    · rw [List.orderedInsert, if_neg hab]
      have hbl := List.pairwise_cons.mp hl
      refine List.Pairwise.cons ?_ (ih hbl.2 (fun c hc h => ha c (List.mem_cons_of_mem _ hc) h))
      intro c hc
      rw [List.mem_orderedInsert] at hc
      rcases hc with rfl | hc
      · intro hbc
        exact absurd (le_of_eq hbc.symm) hab
      · exact hbl.1 c hc

/-- Stability of the sort, pairwise form: any ordering relation that held
pairwise on the input still holds in the output between elements of equal
key. -/
theorem pairwise_jsSortBy_key {α : Type} (key : α → Int) (Q : α → α → Prop)
    {l : List α} (h : l.Pairwise Q) :
    (jsSortBy key l).Pairwise (fun x y => key x = key y → Q x y) := by
  induction l with
  | nil => simp [jsSortBy]
  | cons a l ih =>
    have step : jsSortBy key (a :: l) =
        List.orderedInsert (fun x y => key x ≤ key y) a (jsSortBy key l) := rfl
    rw [step]
    have hal := List.pairwise_cons.mp h
    exact pairwise_orderedInsert_key key Q a (ih hal.2)
      (fun b hb hk => hal.1 b (jsSortBy_mem.mp hb))

end PstUtils

namespace PstUtils.pst2pdf

/-! ### The Map-building loop: invariant and characterization -/

/-- The input position at which grouping key `k` is first discovered. -/
def firstIdx (emails : List Email) (k : String) : Nat :=
  emails.findIdx (fun e => decide (threadKey e = k))

/-- Invariant of the `Map`-building loop of `groupByThread` after the records
`done` have been processed: each entry holds exactly the records of its key in
discovery order, every processed record has an entry, keys are distinct, and
entries are listed in the order their keys were first discovered. -/
structure MapInv (done : List Email) (m : List (String × List Email)) : Prop where
  entries : ∀ p ∈ m, p.2 = done.filter (fun e => decide (threadKey e = p.1))
  complete : ∀ e ∈ done, threadKey e ∈ m.map Prod.fst
  occurs : ∀ p ∈ m, ∃ e ∈ done, threadKey e = p.1
  nodup : (m.map Prod.fst).Nodup
  ordered : (m.map Prod.fst).Pairwise (fun k1 k2 => firstIdx done k1 < firstIdx done k2)

theorem insertIntoMap_of_not_mem {m : List (String × List Email)} {k : String}
    (e : Email) (h : k ∉ m.map Prod.fst) :
    insertIntoMap m k e = m ++ [(k, [e])] := by
  induction m with
  | nil => rfl
  | cons p rest ih =>
    obtain ⟨k', arr⟩ := p
    simp only [List.map_cons, List.mem_cons, not_or] at h
    have step : insertIntoMap ((k', arr) :: rest) k e =
        if k' = k then (k', arr ++ [e]) :: rest
        else (k', arr) :: insertIntoMap rest k e := rfl
    rw [step, if_neg (fun hk => h.1 hk.symm), ih h.2]
    rfl

theorem insertIntoMap_split {m1 m2 : List (String × List Email)} {k : String}
    {arr : List Email} (e : Email) (h1 : k ∉ m1.map Prod.fst) :
    insertIntoMap (m1 ++ (k, arr) :: m2) k e = m1 ++ (k, arr ++ [e]) :: m2 := by
  induction m1 with
  | nil =>
    have step : insertIntoMap ((k, arr) :: m2) k e =
        if k = k then (k, arr ++ [e]) :: m2
        else (k, arr) :: insertIntoMap m2 k e := rfl
    simp only [List.nil_append]
    rw [step, if_pos rfl]
  | cons p rest ih =>
    obtain ⟨k', arr'⟩ := p
    simp only [List.map_cons, List.mem_cons, not_or] at h1
    have step : insertIntoMap (((k', arr') :: rest) ++ (k, arr) :: m2) k e =
        if k' = k then (k', arr' ++ [e]) :: (rest ++ (k, arr) :: m2)
        else (k', arr') :: insertIntoMap (rest ++ (k, arr) :: m2) k e := rfl
    rw [step, if_neg (fun hk => h1.1 hk.symm), ih h1.2]
    rfl

theorem exists_split_of_mem_keys {m : List (String × List Email)} {k : String}
    (h : k ∈ m.map Prod.fst) :
    ∃ m1 arr m2, m = m1 ++ (k, arr) :: m2 ∧ k ∉ m1.map Prod.fst := by
  induction m with
  | nil => simp at h
  | cons p rest ih =>
    by_cases hk : p.1 = k
    · refine ⟨[], p.2, rest, ?_, by simp⟩
      simp [← hk]
    · have h' : k ∈ rest.map Prod.fst := by
        rcases (List.mem_cons).mp h with h0 | h0
        · exact absurd h0.symm hk
        · exact h0
      obtain ⟨m1, arr, m2, heq, hnot⟩ := ih h'
      refine ⟨p :: m1, arr, m2, by rw [heq]; rfl, ?_⟩
      simp only [List.map_cons, List.mem_cons, not_or]
      exact ⟨fun hh => hk hh.symm, hnot⟩

theorem firstIdx_append_of_occurs {done : List Email} {k : String} (e : Email)
    (h : ∃ x ∈ done, threadKey x = k) :
    firstIdx (done ++ [e]) k = firstIdx done k := by
  unfold firstIdx
  rw [List.findIdx_append, if_pos]
  obtain ⟨x, hx, hk⟩ := h
  exact List.findIdx_lt_length_of_exists ⟨x, hx, by simp [hk]⟩

theorem firstIdx_lt_length_of_occurs {done : List Email} {k : String}
    (h : ∃ x ∈ done, threadKey x = k) :
    firstIdx done k < done.length := by
  obtain ⟨x, hx, hk⟩ := h
  exact List.findIdx_lt_length_of_exists ⟨x, hx, by simp [hk]⟩

theorem firstIdx_append_of_fresh {done : List Email} {e : Email} {k : String}
    (hk : threadKey e = k) (h : ∀ x ∈ done, threadKey x ≠ k) :
    firstIdx (done ++ [e]) k = done.length := by
  unfold firstIdx
  rw [List.findIdx_append]
  have hdone : List.findIdx (fun e' => decide (threadKey e' = k)) done = done.length :=
    List.findIdx_eq_length_of_false (fun x hx => by simp [h x hx])
  have he : List.findIdx (fun e' => decide (threadKey e' = k)) [e] = 0 := by
    rw [List.findIdx_cons]
    simp [hk]
  rw [if_neg (by rw [hdone]; exact lt_irrefl _), he, Nat.zero_add]
end PstUtils.pst2pdf

namespace PstUtils.pst2pdf

theorem filter_append_single (done : List Email) (e : Email) (k : String) :
    (done ++ [e]).filter (fun x => decide (threadKey x = k)) =
      done.filter (fun x => decide (threadKey x = k)) ++
        (if threadKey e = k then [e] else []) := by
  rw [List.filter_append]
  by_cases h : threadKey e = k <;> simp [h]

theorem mapInv_insert {done : List Email} {m : List (String × List Email)}
    (e : Email) (h : MapInv done m) :
    MapInv (done ++ [e]) (insertIntoMap m (threadKey e) e) := by
  by_cases hmem : threadKey e ∈ m.map Prod.fst
  · obtain ⟨m1, arr, m2, rfl, hnot1⟩ := exists_split_of_mem_keys hmem
    rw [insertIntoMap_split e hnot1]
    have hkeysold : (m1 ++ (threadKey e, arr) :: m2).map Prod.fst
        = m1.map Prod.fst ++ threadKey e :: m2.map Prod.fst := by simp
    have hkeysnew : (m1 ++ (threadKey e, arr ++ [e]) :: m2).map Prod.fst
        = m1.map Prod.fst ++ threadKey e :: m2.map Prod.fst := by simp
    have hnodup := h.nodup
    rw [hkeysold] at hnodup
    have hnot2 : threadKey e ∉ m2.map Prod.fst := by
      have hsub : (threadKey e :: m2.map Prod.fst).Sublist
          (m1.map Prod.fst ++ threadKey e :: m2.map Prod.fst) :=
        List.sublist_append_right _ _
      exact (List.nodup_cons.mp (hnodup.sublist hsub)).1
    have occ : ∀ k' ∈ (m1 ++ (threadKey e, arr) :: m2).map Prod.fst,
        ∃ x ∈ done, threadKey x = k' := by
      intro k' hk'
      obtain ⟨p, hp, rfl⟩ := List.mem_map.mp hk'
      exact h.occurs p hp
    refine ⟨?_, ?_, ?_, ?_, ?_⟩
    · intro p hp
      rcases List.mem_append.mp hp with hp1 | hp2
      · have hne : p.1 ≠ threadKey e :=
          fun hh => hnot1 (hh ▸ List.mem_map_of_mem Prod.fst hp1)
        have hold := h.entries p (List.mem_append.mpr (Or.inl hp1))
        rw [filter_append_single, if_neg (fun hh => hne hh.symm), List.append_nil]
        exact hold
      · rcases List.mem_cons.mp hp2 with rfl | hp3
        · have hold := h.entries (threadKey e, arr)
            (List.mem_append.mpr (Or.inr (List.mem_cons_self _ _)))
          simp only at hold ⊢
          rw [filter_append_single, if_pos rfl, ← hold]
        · have hne : p.1 ≠ threadKey e :=
            fun hh => hnot2 (hh ▸ List.mem_map_of_mem Prod.fst hp3)
          have hold := h.entries p
            (List.mem_append.mpr (Or.inr (List.mem_cons_of_mem _ hp3)))
          rw [filter_append_single, if_neg (fun hh => hne hh.symm), List.append_nil]
          exact hold
    · intro x hx
      rcases List.mem_append.mp hx with hx1 | hx2
      · have := h.complete x hx1
        rw [hkeysold] at this
        rw [hkeysnew]
        exact this
      · rw [List.mem_singleton.mp hx2, hkeysnew]
        exact List.mem_append_right _ (List.mem_cons_self _ _)
    · intro p hp
      rcases List.mem_append.mp hp with hp1 | hp2
      · obtain ⟨x, hx, hk⟩ := h.occurs p (List.mem_append.mpr (Or.inl hp1))
        exact ⟨x, List.mem_append_left _ hx, hk⟩
      · rcases List.mem_cons.mp hp2 with rfl | hp3
        · exact ⟨e, List.mem_append_right _ (List.mem_singleton.mpr rfl), rfl⟩
        · obtain ⟨x, hx, hk⟩ := h.occurs p
            (List.mem_append.mpr (Or.inr (List.mem_cons_of_mem _ hp3)))
          exact ⟨x, List.mem_append_left _ hx, hk⟩
    · rw [hkeysnew]
      exact hnodup
    · rw [hkeysnew]
      have hord := h.ordered
      rw [hkeysold] at hord
      have occ2 : ∀ k' ∈ m1.map Prod.fst ++ threadKey e :: m2.map Prod.fst,
          ∃ x ∈ done, threadKey x = k' := by
        rw [← hkeysold]
        exact occ
      exact hord.imp_of_mem (fun {k1 k2} h1 h2 hlt => by
        rw [firstIdx_append_of_occurs e (occ2 k1 h1),
          firstIdx_append_of_occurs e (occ2 k2 h2)]
        exact hlt)
  · rw [insertIntoMap_of_not_mem e hmem]
    have hkeys : (m ++ [(threadKey e, [e])]).map Prod.fst
        = m.map Prod.fst ++ [threadKey e] := by simp
    have occ : ∀ k' ∈ m.map Prod.fst, ∃ x ∈ done, threadKey x = k' := by
      intro k' hk'
      obtain ⟨p, hp, rfl⟩ := List.mem_map.mp hk'
      exact h.occurs p hp
    have hfresh : ∀ x ∈ done, threadKey x ≠ threadKey e := by
      intro x hx hh
      exact hmem (hh ▸ h.complete x hx)
    refine ⟨?_, ?_, ?_, ?_, ?_⟩
    · intro p hp
      rcases List.mem_append.mp hp with hp1 | hp2
      · have hne : p.1 ≠ threadKey e :=
          fun hh => hmem (hh ▸ List.mem_map_of_mem Prod.fst hp1)
        rw [filter_append_single, if_neg (fun hh => hne hh.symm), List.append_nil]
        exact h.entries p hp1
      · rw [List.mem_singleton.mp hp2]
        have hnil : done.filter (fun x => decide (threadKey x = threadKey e)) = [] :=
          List.filter_eq_nil_iff.mpr (fun x hx => by simp [hfresh x hx])
      
        simp only
        rw [filter_append_single, if_pos rfl, hnil, List.nil_append]
    · intro x hx
      rcases List.mem_append.mp hx with hx1 | hx2
      · rw [hkeys]
        exact List.mem_append_left _ (h.complete x hx1)
      · rw [List.mem_singleton.mp hx2, hkeys]
        exact List.mem_append_right _ (List.mem_singleton.mpr rfl)
    · intro p hp
      rcases List.mem_append.mp hp with hp1 | hp2
      · obtain ⟨x, hx, hk⟩ := h.occurs p hp1
        exact ⟨x, List.mem_append_left _ hx, hk⟩
      · rw [List.mem_singleton.mp hp2]
        exact ⟨e, List.mem_append_right _ (List.mem_singleton.mpr rfl), rfl⟩
    · rw [hkeys, List.nodup_append]
      refine ⟨h.nodup, List.nodup_singleton _, fun a ha1 ha2 => ?_⟩
      rw [List.mem_singleton.mp ha2] at ha1
      exact hmem ha1
    · rw [hkeys, List.pairwise_append]
      refine ⟨h.ordered.imp_of_mem (fun {k1 k2} h1 h2 hlt => by
          rw [firstIdx_append_of_occurs e (occ k1 h1),
            firstIdx_append_of_occurs e (occ k2 h2)]
          exact hlt),
        List.pairwise_singleton _ _, ?_⟩
      intro k1 h1 k2 h2
      rw [List.mem_singleton.mp h2]
      rw [firstIdx_append_of_occurs e (occ k1 h1),
        firstIdx_append_of_fresh rfl hfresh]
      exact firstIdx_lt_length_of_occurs (occ k1 h1)

theorem buildThreadMap_append (emails : List Email) (e : Email) :
    buildThreadMap (emails ++ [e]) =
      insertIntoMap (buildThreadMap emails) (threadKey e) e := by
  unfold buildThreadMap
  rw [List.foldl_append]
  rfl

theorem mapInv_buildThreadMap (emails : List Email) :
    MapInv emails (buildThreadMap emails) := by
  induction emails using List.reverseRecOn with
  | nil => refine ⟨?_, ?_, ?_, ?_, ?_⟩ <;> simp [buildThreadMap]
  | append_singleton l e ih =>
    rw [buildThreadMap_append]
    exact mapInv_insert e ih

end PstUtils.pst2pdf

namespace PstUtils.pst2pdf

/-! ### Corollaries about groupByThread -/

theorem mem_groupByThread {emails : List Email} {t : Thread} :
    t ∈ groupByThread emails ↔ ∃ p ∈ buildThreadMap emails, t = mkThread p.2 := by
  unfold groupByThread
  rw [jsSortBy_mem, List.mem_map]
  constructor
  · rintro ⟨p, hp, rfl⟩
    exact ⟨p, hp, rfl⟩
  · rintro ⟨p, hp, rfl⟩
    exact ⟨p, hp, rfl⟩

theorem mkThread_emails (arr : List Email) :
    (mkThread arr).emails = jsSortBy Email.date arr := rfl

theorem threadKey_of_mem_entry {emails : List Email} {p : String × List Email}
    (hp : p ∈ buildThreadMap emails) {e : Email} (he : e ∈ p.2) :
    threadKey e = p.1 := by
  rw [(mapInv_buildThreadMap emails).entries p hp] at he
  have := (List.mem_filter.mp he).2
  simpa using this

theorem entry_ne_nil {emails : List Email} {p : String × List Email}
    (hp : p ∈ buildThreadMap emails) : p.2 ≠ [] := by
  obtain ⟨x, hx, hk⟩ := (mapInv_buildThreadMap emails).occurs p hp
  rw [(mapInv_buildThreadMap emails).entries p hp]
  intro hnil
  rw [List.filter_eq_nil_iff] at hnil
  exact hnil x hx (by simp [hk])

theorem jsSortBy_ne_nil {α : Type} {key : α → Int} {l : List α} (h : l ≠ []) :
    jsSortBy key l ≠ [] := by
  intro hnil
  apply h
  have hperm := jsSortBy_perm key l
  rw [hnil] at hperm
  exact (hperm.symm.eq_nil)

theorem mkThread_head {arr : List Email} (h : arr ≠ []) :
    ∃ e rest, (mkThread arr).emails = e :: rest ∧
      (mkThread arr).subject = e.normalizedSubject := by
  obtain ⟨e, rest, heq⟩ := List.exists_cons_of_ne_nil (@jsSortBy_ne_nil Email Email.date arr h)
  refine ⟨e, rest, ?_, ?_⟩
  · rw [mkThread_emails, heq]
  · have hs : (mkThread arr).subject =
        match jsSortBy Email.date arr with
        | [] => ""
        | e :: _ => e.normalizedSubject := rfl
    rw [hs, heq]

end PstUtils.pst2pdf

open PstUtils PstUtils.pst2pdf in
/-- C2: two records land in the same thread exactly when their case-folded
normalized subjects (the grouping key `threadKey`) are equal: members of one
thread all share the key, and any two input records with equal keys appear
together in some thread.  This characterization does not depend on the
insertion order of keys. -/
theorem C2_grouping_iff_equal_key (emails : List Email) :
    (∀ t ∈ groupByThread emails, ∀ e1 ∈ t.emails, ∀ e2 ∈ t.emails,
      jsToLower e1.normalizedSubject = jsToLower e2.normalizedSubject) ∧
    (∀ e1 ∈ emails, ∀ e2 ∈ emails,
      jsToLower e1.normalizedSubject = jsToLower e2.normalizedSubject →
      ∃ t ∈ groupByThread emails, e1 ∈ t.emails ∧ e2 ∈ t.emails) := by
  constructor
  · intro t ht e1 he1 e2 he2
    obtain ⟨p, hp, rfl⟩ := mem_groupByThread.mp ht
    rw [mkThread_emails, jsSortBy_mem] at he1 he2
    have h1 := threadKey_of_mem_entry hp he1
    have h2 := threadKey_of_mem_entry hp he2
    unfold threadKey at h1 h2
    rw [h1, h2]
  · intro e1 he1 e2 he2 hk
    have hmem := (mapInv_buildThreadMap emails).complete e1 he1
    obtain ⟨p, hp, hfst⟩ := List.mem_map.mp hmem
    refine ⟨mkThread p.2, mem_groupByThread.mpr ⟨p, hp, rfl⟩, ?_, ?_⟩
    · rw [mkThread_emails, jsSortBy_mem,
        (mapInv_buildThreadMap emails).entries p hp]
      exact List.mem_filter.mpr ⟨he1, by simp [threadKey, hfst]⟩
    · rw [mkThread_emails, jsSortBy_mem,
        (mapInv_buildThreadMap emails).entries p hp]
      refine List.mem_filter.mpr ⟨he2, ?_⟩
      simp only [threadKey] at hfst ⊢
      rw [decide_eq_true_eq, hfst, ← hk]

open PstUtils PstUtils.pst2pdf in
/-- Witness for C2: in a concrete two-record input whose normalized subjects
differ only by case, both records land in one common thread. -/
theorem C2_grouping_iff_equal_key_witness :
    ∃ t ∈ groupByThread
        [⟨"a", "Hello", "Hello", 5, "", "", ""⟩,
         ⟨"b", "HELLO", "HELLO", 3, "", "", ""⟩],
      (⟨"a", "Hello", "Hello", 5, "", "", ""⟩ : Email) ∈ t.emails ∧
      (⟨"b", "HELLO", "HELLO", 3, "", "", ""⟩ : Email) ∈ t.emails :=
  (C2_grouping_iff_equal_key _).2
    ⟨"a", "Hello", "Hello", 5, "", "", ""⟩ (by decide)
    ⟨"b", "HELLO", "HELLO", 3, "", "", ""⟩ (by decide) (by decide)

open PstUtils PstUtils.pst2pdf in
/-- C3: inside every produced thread the messages are sorted ascending by
timestamp, and for each fixed timestamp the thread's messages carrying it
form a subsequence of the input — i.e. same-timestamp messages keep their
relative discovery order (the intra-thread sort is stable). -/
theorem C3_intra_thread_order (emails : List Email) :
    ∀ t ∈ groupByThread emails,
      t.emails.Pairwise (fun a b => a.date ≤ b.date) ∧
      ∀ d : Int, (t.emails.filter (fun e => decide (e.date = d))).Sublist emails := by
  intro t ht
  obtain ⟨p, hp, rfl⟩ := mem_groupByThread.mp ht
  rw [mkThread_emails]
  constructor
  · exact jsSortBy_sorted Email.date p.2
  · intro d
    rw [jsSortBy_filter_key Email.date d p.2,
      (mapInv_buildThreadMap emails).entries p hp]
    exact ((List.filter_sublist _).trans (List.filter_sublist _))

open PstUtils PstUtils.pst2pdf in
/-- Witness for C3: a concrete three-record input with a timestamp tie,
instantiated at its produced thread (records c, a, b after sorting) and at
the tied timestamp 7. -/
theorem C3_intra_thread_order_witness :
    (⟨"X", [⟨"c", "X", "X", 2, "", "", ""⟩,
            ⟨"a", "X", "X", 7, "", "", ""⟩,
            ⟨"b", "X", "X", 7, "", "", ""⟩]⟩ : Thread).emails.Pairwise
        (fun a b => a.date ≤ b.date) ∧
    ((⟨"X", [⟨"c", "X", "X", 2, "", "", ""⟩,
             ⟨"a", "X", "X", 7, "", "", ""⟩,
             ⟨"b", "X", "X", 7, "", "", ""⟩]⟩ : Thread).emails.filter
        (fun e => decide (e.date = 7))).Sublist
      [⟨"a", "X", "X", 7, "", "", ""⟩,
       ⟨"b", "X", "X", 7, "", "", ""⟩,
       ⟨"c", "X", "X", 2, "", "", ""⟩] :=
  ⟨(C3_intra_thread_order
      [⟨"a", "X", "X", 7, "", "", ""⟩, ⟨"b", "X", "X", 7, "", "", ""⟩,
       ⟨"c", "X", "X", 2, "", "", ""⟩] _ (by decide)).1,
   (C3_intra_thread_order
      [⟨"a", "X", "X", 7, "", "", ""⟩, ⟨"b", "X", "X", 7, "", "", ""⟩,
       ⟨"c", "X", "X", 2, "", "", ""⟩] _ (by decide)).2 7⟩

open PstUtils PstUtils.pst2pdf in
/-- C5: the display subject of every produced thread is the normalized
subject of the first message of the thread after the intra-thread sort
(its chronologically-first message under the stable tie-breaking). -/
theorem C5_display_subject (emails : List Email) :
    ∀ t ∈ groupByThread emails,
      ∃ e rest, t.emails = e :: rest ∧ t.subject = e.normalizedSubject := by
  intro t ht
  obtain ⟨p, hp, rfl⟩ := mem_groupByThread.mp ht
  exact mkThread_head (entry_ne_nil hp)

open PstUtils PstUtils.pst2pdf in
/-- Witness for C5: in a concrete input where the later-discovered record is
chronologically first, the thread's display subject comes from that record. -/
theorem C5_display_subject_witness :
    ∃ e rest,
      (⟨"hi", [⟨"b", "hi", "hi", 1, "", "", ""⟩,
               ⟨"a", "Re: Hi", "Hi", 9, "", "", ""⟩]⟩ : Thread).emails
          = e :: rest ∧
      (⟨"hi", [⟨"b", "hi", "hi", 1, "", "", ""⟩,
               ⟨"a", "Re: Hi", "Hi", 9, "", "", ""⟩]⟩ : Thread).subject
          = e.normalizedSubject :=
  C5_display_subject
    [⟨"a", "Re: Hi", "Hi", 9, "", "", ""⟩, ⟨"b", "hi", "hi", 1, "", "", ""⟩]
    ⟨"hi", [⟨"b", "hi", "hi", 1, "", "", ""⟩, ⟨"a", "Re: Hi", "Hi", 9, "", "", ""⟩]⟩
    (by decide)

namespace PstUtils.pst2pdf

/-! ### Partition and ordering corollaries -/

theorem join_filter_perm :
    ∀ (keys : List String) (emails : List Email), keys.Nodup →
      (∀ e ∈ emails, threadKey e ∈ keys) →
      List.Perm
        (keys.map (fun k => emails.filter (fun e => decide (threadKey e = k)))).flatten
        emails := by
  intro keys
  induction keys with
  | nil =>
    intro emails _ hcov
    have hnil : emails = [] := by
      cases emails with
      | nil => rfl
      | cons e es => exact absurd (hcov e (List.mem_cons_self e es)) (List.not_mem_nil _)
    rw [hnil]
    exact List.Perm.refl _
  | cons k ks ih =>
    intro emails hnd hcov
    rw [List.map_cons, List.flatten_cons]
    have hks : ks.map (fun k' => emails.filter (fun e => decide (threadKey e = k'))) =
        ks.map (fun k' =>
          (emails.filter (fun e => !decide (threadKey e = k))).filter
            (fun e => decide (threadKey e = k'))) := by
      apply List.map_congr_left
      intro k' hk'
      rw [List.filter_filter]
      apply List.filter_congr
      intro e he
      by_cases hek : threadKey e = k'
      · have hne : threadKey e ≠ k := fun hh =>
          (List.nodup_cons.mp hnd).1 (hh ▸ hek ▸ hk')
        have hk2 : ¬ k' = k := fun hh => hne (hek.trans hh)
        simp [hek, hne, hk2]
      · simp [hek]
    rw [hks]
    have hcov' : ∀ e ∈ emails.filter (fun e => !decide (threadKey e = k)),
        threadKey e ∈ ks := by
      intro e he
      obtain ⟨hem, hne⟩ := List.mem_filter.mp he
      rcases List.mem_cons.mp (hcov e hem) with h0 | h0
      · simp [h0] at hne
      · exact h0
    have hperm := ih (emails.filter (fun e => !decide (threadKey e = k)))
      (List.nodup_cons.mp hnd).2 hcov'
    exact (List.Perm.append_left _ hperm).trans
      (List.filter_append_perm (fun e => decide (threadKey e = k)) emails)

theorem flatten_entries_perm (emails : List Email) :
    List.Perm ((buildThreadMap emails).map (fun p => p.2)).flatten emails := by
  have h3 : (buildThreadMap emails).map (fun p => p.2) =
      ((buildThreadMap emails).map Prod.fst).map
        (fun k => emails.filter (fun e => decide (threadKey e = k))) := by
    rw [List.map_map]
    exact List.map_congr_left
      (fun p hp => (mapInv_buildThreadMap emails).entries p hp)
  rw [h3]
  exact join_filter_perm _ emails (mapInv_buildThreadMap emails).nodup
    (mapInv_buildThreadMap emails).complete

theorem groupByThread_flatten_perm (emails : List Email) :
    List.Perm ((groupByThread emails).map Thread.emails).flatten emails := by
  have h1 : List.Perm ((groupByThread emails).map Thread.emails)
      ((((buildThreadMap emails).map (fun p => mkThread p.2)).map Thread.emails)) :=
    (jsSortBy_perm threadDate _).map Thread.emails
  have h2 : ((buildThreadMap emails).map (fun p => mkThread p.2)).map Thread.emails =
      (buildThreadMap emails).map (fun p => jsSortBy Email.date p.2) := by
    rw [List.map_map]
    rfl
  have h4 : List.Perm
      ((buildThreadMap emails).map (fun p => jsSortBy Email.date p.2)).flatten
      ((buildThreadMap emails).map (fun p => p.2)).flatten := by
    induction buildThreadMap emails with
    | nil => exact List.Perm.refl _
    | cons p rest ih =>
      rw [List.map_cons, List.map_cons, List.flatten_cons, List.flatten_cons]
      exact (jsSortBy_perm Email.date p.2).append ih
  exact ((h1.flatten.trans (h2 ▸ List.Perm.refl _)).trans h4).trans
    (flatten_entries_perm emails)

theorem groupByThread_sorted_emails {emails : List Email} {t : Thread}
    (ht : t ∈ groupByThread emails) :
    t.emails.Pairwise (fun a b => a.date ≤ b.date) := by
  obtain ⟨p, hp, rfl⟩ := mem_groupByThread.mp ht
  rw [mkThread_emails]
  exact jsSortBy_sorted Email.date p.2

/-- Position in a sorted list: a strictly smaller key means a strictly
smaller index. -/
theorem index_lt_of_key_lt {α : Type} (key : α → Int) {l : List α}
    (hs : l.Pairwise (fun a b => key a ≤ key b))
    {i j : Nat} (hi : i < l.length) (hj : j < l.length)
    (hlt : key (l.get ⟨i, hi⟩) < key (l.get ⟨j, hj⟩)) : i < j := by
  by_contra hne
  rcases Nat.lt_or_ge j i with hj2 | hj2
  · have := List.Sorted.rel_get_of_lt hs (a := ⟨j, hj⟩) (b := ⟨i, hi⟩) hj2
    exact absurd (lt_of_lt_of_le hlt this) (lt_irrefl _)
  · have hji : j = i := Nat.le_antisymm (Nat.le_of_not_lt hne) hj2
    subst hji
    exact absurd hlt (lt_irrefl _)

end PstUtils.pst2pdf

open PstUtils PstUtils.pst2pdf in
/-- C8: every produced thread is non-empty, and the concatenation of all
threads' message lists is a permutation of the input records — no record is
lost or duplicated. -/
theorem C8_nonempty_partition (emails : List Email) :
    (∀ t ∈ groupByThread emails, t.emails ≠ []) ∧
    List.Perm ((groupByThread emails).map Thread.emails).flatten emails := by
  refine ⟨?_, groupByThread_flatten_perm emails⟩
  intro t ht
  obtain ⟨p, hp, rfl⟩ := mem_groupByThread.mp ht
  rw [mkThread_emails]
  exact jsSortBy_ne_nil (entry_ne_nil hp)

open PstUtils PstUtils.pst2pdf in
/-- Witness for C8: on a concrete two-record input, the produced thread is
non-empty and flattening the output is a permutation of the input. -/
theorem C8_nonempty_partition_witness :
    (⟨"A", [⟨"a", "A", "A", 4, "", "", ""⟩]⟩ : Thread).emails ≠ [] ∧
    List.Perm ((groupByThread
        [⟨"a", "A", "A", 4, "", "", ""⟩, ⟨"b", "B", "B", 1, "", "", ""⟩]).map
          Thread.emails).flatten
      [⟨"a", "A", "A", 4, "", "", ""⟩, ⟨"b", "B", "B", 1, "", "", ""⟩] :=
  ⟨(C8_nonempty_partition
      [⟨"a", "A", "A", 4, "", "", ""⟩, ⟨"b", "B", "B", 1, "", "", ""⟩]).1
      ⟨"A", [⟨"a", "A", "A", 4, "", "", ""⟩]⟩ (by decide),
   (C8_nonempty_partition
      [⟨"a", "A", "A", 4, "", "", ""⟩, ⟨"b", "B", "B", 1, "", "", ""⟩]).2⟩

namespace PstUtils.pst2pdf

/-- The discovery position of a thread: the input index of the first record
carrying the thread's grouping key (the case-folded display subject). -/
def discIdx (emails : List Email) (t : Thread) : Nat :=
  firstIdx emails (jsToLower t.subject)

theorem mkThread_key {emails : List Email} {p : String × List Email}
    (hp : p ∈ buildThreadMap emails) :
    jsToLower (mkThread p.2).subject = p.1 := by
  obtain ⟨e, rest, hE, hS⟩ := mkThread_head (entry_ne_nil hp)
  rw [hS]
  have he : e ∈ p.2 := by
    have hmem : e ∈ (mkThread p.2).emails := by
      rw [hE]
      exact List.mem_cons_self _ _
    rw [mkThread_emails, jsSortBy_mem] at hmem
    exact hmem
  exact threadKey_of_mem_entry hp he

theorem preThreads_ordered (emails : List Email) :
    ((buildThreadMap emails).map (fun p => mkThread p.2)).Pairwise
      (fun t1 t2 => discIdx emails t1 < discIdx emails t2) := by
  have hord := (mapInv_buildThreadMap emails).ordered
  rw [List.pairwise_map] at hord ⊢
  exact hord.imp_of_mem (fun {p q} hp hq hlt => by
    unfold discIdx
    rw [mkThread_key hp, mkThread_key hq]
    exact hlt)

end PstUtils.pst2pdf

open PstUtils PstUtils.pst2pdf in
/-- C4: the output threads are ordered ascending by the timestamp of each
thread's earliest message, and two threads whose earliest messages carry
equal timestamps keep their discovery order: the one whose first record
appeared earlier in the input comes first. -/
theorem C4_thread_order (emails : List Email) :
    (groupByThread emails).Pairwise
      (fun t1 t2 => threadDate t1 ≤ threadDate t2) ∧
    (groupByThread emails).Pairwise
      (fun t1 t2 => threadDate t1 = threadDate t2 →
        discIdx emails t1 < discIdx emails t2) := by
  constructor
  · exact jsSortBy_sorted threadDate _
  · exact pairwise_jsSortBy_key threadDate
      (fun t1 t2 => discIdx emails t1 < discIdx emails t2)
      (preThreads_ordered emails)

open PstUtils PstUtils.pst2pdf in
/-- Witness for C4: the two pairwise orderings evaluated on a concrete
three-record input producing three threads, two of them tied on timestamp. -/
theorem C4_thread_order_witness :
    (groupByThread
      [⟨"a", "A", "A", 4, "", "", ""⟩,
       ⟨"b", "B", "B", 4, "", "", ""⟩,
       ⟨"c", "C", "C", 1, "", "", ""⟩]).Pairwise
      (fun t1 t2 => threadDate t1 ≤ threadDate t2) ∧
    (groupByThread
      [⟨"a", "A", "A", 4, "", "", ""⟩,
       ⟨"b", "B", "B", 4, "", "", ""⟩,
       ⟨"c", "C", "C", 1, "", "", ""⟩]).Pairwise
      (fun t1 t2 => threadDate t1 = threadDate t2 →
        discIdx
          [⟨"a", "A", "A", 4, "", "", ""⟩,
           ⟨"b", "B", "B", 4, "", "", ""⟩,
           ⟨"c", "C", "C", 1, "", "", ""⟩] t1 <
        discIdx
          [⟨"a", "A", "A", 4, "", "", ""⟩,
           ⟨"b", "B", "B", 4, "", "", ""⟩,
           ⟨"c", "C", "C", 1, "", "", ""⟩] t2) :=
  C4_thread_order
    [⟨"a", "A", "A", 4, "", "", ""⟩,
     ⟨"b", "B", "B", 4, "", "", ""⟩,
     ⟨"c", "C", "C", 1, "", "", ""⟩]

open PstUtils PstUtils.pst2pdf in
/-- C6: a record whose parsed date is absent or unparseable is assigned the
epoch sentinel by the loader's field mapping, and any epoch-dated message
sorts strictly before every later-dated message both inside its thread and
across threads — even if it was in fact received later. -/
theorem C6_epoch_sentinel :
    (∀ (file : String) (mail : Mail), mail.date = none →
      (mkEmail file mail).date = epochMs) ∧
    (∀ (emails : List Email), ∀ t ∈ groupByThread emails,
      ∀ i j, ∀ (hi : i < t.emails.length) (hj : j < t.emails.length),
        (t.emails.get ⟨i, hi⟩).date = epochMs →
        epochMs < (t.emails.get ⟨j, hj⟩).date → i < j) ∧
    (∀ (emails : List Email),
      ∀ i j, ∀ (hi : i < (groupByThread emails).length)
        (hj : j < (groupByThread emails).length),
        threadDate ((groupByThread emails).get ⟨i, hi⟩) = epochMs →
        epochMs < threadDate ((groupByThread emails).get ⟨j, hj⟩) → i < j) := by
  refine ⟨?_, ?_, ?_⟩
  · intro file mail h
    simp [mkEmail, h]
  · intro emails t ht i j hi hj h0 hpos
    exact index_lt_of_key_lt Email.date (groupByThread_sorted_emails ht) hi hj
      (by rw [h0]; exact hpos)
  · intro emails i j hi hj h0 hpos
    have hs : (groupByThread emails).Pairwise
        (fun a b => threadDate a ≤ threadDate b) := jsSortBy_sorted threadDate _
    exact index_lt_of_key_lt threadDate hs hi hj (by rw [h0]; exact hpos)

open PstUtils PstUtils.pst2pdf in
/-- Witness for C6: a dateless parsed mail gets date 0; in a concrete thread
whose first message is epoch-dated (though discovered second), the epoch
message indeed precedes the dated one, and likewise for whole threads. -/
theorem C6_epoch_sentinel_witness :
    (mkEmail "f" ⟨some "S", none, none, none, none⟩).date = epochMs ∧
    (0 : Nat) < 1 ∧ (0 : Nat) < 1 :=
  ⟨C6_epoch_sentinel.1 "f" ⟨some "S", none, none, none, none⟩ rfl,
   C6_epoch_sentinel.2.1
     [⟨"a", "X", "X", 9, "", "", ""⟩, ⟨"b", "X", "X", 0, "", "", ""⟩]
     ⟨"X", [⟨"b", "X", "X", 0, "", "", ""⟩, ⟨"a", "X", "X", 9, "", "", ""⟩]⟩
     (by decide) 0 1 (by decide) (by decide) (by decide) (by decide),
   C6_epoch_sentinel.2.2
     [⟨"a", "A", "A", 9, "", "", ""⟩, ⟨"b", "B", "B", 0, "", "", ""⟩]
     0 1 (by decide) (by decide) (by decide) (by decide)⟩

namespace PstUtils.pst2pdf

/-! ### Loader characterization -/

/-- The records of the files that parse successfully, in discovery order. -/
def loadRes (files : List EmlFile) : List Email :=
  files.filterMap (fun f => f.parsed.map (fun m => mkEmail f.path m))

/-- The number of loadable (successfully parsing) files. -/
def loadableCount (files : List EmlFile) : Nat :=
  (files.filter (fun f => f.parsed.isSome)).length

theorem loadableCount_cons_some {f : EmlFile} {m : Mail} (hf : f.parsed = some m)
    (l : List EmlFile) : loadableCount (f :: l) = loadableCount l + 1 := by
  simp [loadableCount, List.filter_cons, hf]

theorem loadableCount_cons_none {f : EmlFile} (hf : f.parsed = none)
    (l : List EmlFile) : loadableCount (f :: l) = loadableCount l := by
  simp [loadableCount, List.filter_cons, hf]

theorem length_loadRes (files : List EmlFile) :
    (loadRes files).length = loadableCount files := by
  induction files with
  | nil => rfl
  | cons f rest ih =>
    cases hf : f.parsed with
    | some m => rw [loadableCount_cons_some hf]; simp [loadRes, List.filterMap_cons, hf]; exact ih
    | none => rw [loadableCount_cons_none hf]; simp [loadRes, List.filterMap_cons, hf]; exact ih

theorem parseEmailsLoop_zero (files : List EmlFile) :
    ∀ acc : List Email,
      parseEmailsLoop 0 files acc =
        (acc.reverse ++ loadRes files, files,
          files.filter (fun f => f.parsed.isNone)) := by
  induction files with
  | nil => intro acc; simp [parseEmailsLoop, loadRes]
  | cons f rest ih =>
    intro acc
    rw [parseEmailsLoop]
    simp only [ne_eq, not_true_eq_false, false_and, if_false]
    cases hf : f.parsed with
    | some m =>
      simp only [ih]
      simp [loadRes, List.filterMap_cons, hf, List.filter_cons]
    | none =>
      simp only [ih]
      simp [loadRes, List.filterMap_cons, hf, List.filter_cons]

theorem parseEmailsLoop_break (N : Nat) (hN : N ≠ 0) (files : List EmlFile)
    {acc : List Email} (h : N ≤ acc.length) :
    parseEmailsLoop N files acc = (acc.reverse, [], []) := by
  cases files with
  | nil => rfl
  | cons f rest =>
    rw [parseEmailsLoop, if_pos ⟨hN, h⟩]

theorem parseEmailsLoop_limit (N : Nat) (hN : N ≠ 0) :
    ∀ (files : List EmlFile) (acc : List Email), acc.length < N →
      ∃ k, k ≤ files.length ∧
        parseEmailsLoop N files acc =
          (acc.reverse ++ loadRes (files.take k), files.take k,
            (files.take k).filter (fun f => f.parsed.isNone)) ∧
        acc.length + loadableCount (files.take k) =
          min N (acc.length + loadableCount files) ∧
        (∀ j, j < k → acc.length + loadableCount (files.take j) < N) := by
  intro files
  induction files with
  | nil =>
    intro acc hacc
    refine ⟨0, Nat.le_refl 0, ?_, ?_, ?_⟩
    · simp [parseEmailsLoop, loadRes]
    · simp only [List.take_nil, loadableCount, List.filter_nil, List.length_nil]
      omega
    · intro j hj
      exact absurd hj (Nat.not_lt_zero j)
  | cons f rest ih =>
    intro acc hacc
    have hcond : ¬ (N ≠ 0 ∧ N ≤ acc.length) :=
      fun hh => absurd hacc (Nat.not_lt.mpr hh.2)
    cases hf : f.parsed with
    | some m =>
      by_cases hfull : (mkEmail f.path m :: acc).length < N
      · obtain ⟨k, hk, heq, hcnt, hmin⟩ := ih (mkEmail f.path m :: acc) hfull
        refine ⟨k + 1, Nat.succ_le_succ hk, ?_, ?_, ?_⟩
        · rw [parseEmailsLoop, if_neg hcond]
          simp only [hf, heq]
          simp [loadRes, List.take_succ_cons, List.filterMap_cons, hf,
            List.filter_cons]
        · rw [List.take_succ_cons, loadableCount_cons_some hf,
            loadableCount_cons_some hf]
          simp only [List.length_cons] at hcnt
          omega
        · intro j hj
          cases j with
          | zero =>
            simpa [loadableCount] using hacc
          | succ j2 =>
            have hji := hmin j2 (Nat.lt_of_succ_lt_succ hj)
            rw [List.take_succ_cons, loadableCount_cons_some hf]
            simp only [List.length_cons] at hji
            omega
      · have hlen : acc.length + 1 = N := by
          simp only [List.length_cons] at hfull
          omega
        refine ⟨1, Nat.succ_le_succ (Nat.zero_le _), ?_, ?_, ?_⟩
        · rw [parseEmailsLoop, if_neg hcond]
          simp only [hf]
          rw [parseEmailsLoop_break N hN rest (by simp; omega)]
          simp [loadRes, List.filterMap_cons, hf, List.filter_cons]
        · rw [List.take_succ_cons, List.take_zero, loadableCount_cons_some hf,
            loadableCount_cons_some hf]
          simp only [loadableCount, List.filter_nil, List.length_nil]
          omega
        · intro j hj
          cases j with
          | zero => simpa [loadableCount] using hacc
          | succ j2 => exact absurd hj (by omega)
    | none =>
      obtain ⟨k, hk, heq, hcnt, hmin⟩ := ih acc hacc
      refine ⟨k + 1, Nat.succ_le_succ hk, ?_, ?_, ?_⟩
      · rw [parseEmailsLoop, if_neg hcond]
        simp only [hf, heq]
        simp [loadRes, List.take_succ_cons, List.filterMap_cons, hf,
          List.filter_cons]
      · rw [List.take_succ_cons, loadableCount_cons_none hf,
          loadableCount_cons_none hf]
        omega
      · intro j hj
        cases j with
        | zero => simpa [loadableCount] using hacc
        | succ j2 =>
          have hji := hmin j2 (Nat.lt_of_succ_lt_succ hj)
          rw [List.take_succ_cons, loadableCount_cons_none hf]
          omega

end PstUtils.pst2pdf

open PstUtils PstUtils.pst2pdf in
/-- C7: with a positive configured maximum N the loader returns exactly
`min N (total loadable messages)` records; the files it attempts form a
prefix of the input in which, before every attempted file, fewer than N
records had been loaded (so it stops as soon as N records are loaded and
never attempts a later file), and the returned records are precisely the
full parse of that attempted prefix — truncation happens in the loader,
before any grouping. -/
theorem C7_truncation (files : List EmlFile) (N : Nat) (hN : 0 < N) :
    (parseEmails files N).length = min N (loadableCount files) ∧
    ∃ k, k ≤ files.length ∧
      attemptedFiles files N = files.take k ∧
      parseEmails files N = loadRes (files.take k) ∧
      (∀ j, j < k → loadableCount (files.take j) < N) := by
  obtain ⟨k, hk, heq, hcnt, hmin⟩ :=
    parseEmailsLoop_limit N (Nat.pos_iff_ne_zero.mp hN) files []
      (by simpa using hN)
  have h1 : parseEmails files N = loadRes (files.take k) := by
    unfold parseEmails
    rw [heq]
    simp
  have h2 : attemptedFiles files N = files.take k := by
    unfold attemptedFiles
    rw [heq]
  refine ⟨?_, k, hk, h2, h1, ?_⟩
  · rw [h1, length_loadRes]
    simpa using hcnt
  · intro j hj
    simpa using hmin j hj

open PstUtils PstUtils.pst2pdf in
/-- Witness for C7: four concrete files (three parseable, one corrupt) with
maximum 2: the loader returns 2 = min 2 3 records, attempts exactly the
first three files, and each attempt happened with fewer than 2 records
loaded. -/
theorem C7_truncation_witness :
    (0 : Nat) < 2 ∧
    ((parseEmails
        [⟨"a", some ⟨some "A", some 1, none, none, none⟩⟩,
         ⟨"b", none⟩,
         ⟨"c", some ⟨some "C", some 3, none, none, none⟩⟩,
         ⟨"d", some ⟨some "D", some 4, none, none, none⟩⟩] 2).length =
      min 2 (loadableCount
        [⟨"a", some ⟨some "A", some 1, none, none, none⟩⟩,
         ⟨"b", none⟩,
         ⟨"c", some ⟨some "C", some 3, none, none, none⟩⟩,
         ⟨"d", some ⟨some "D", some 4, none, none, none⟩⟩]) ∧
    ∃ k, k ≤ ([⟨"a", some ⟨some "A", some 1, none, none, none⟩⟩,
         ⟨"b", none⟩,
         ⟨"c", some ⟨some "C", some 3, none, none, none⟩⟩,
         ⟨"d", some ⟨some "D", some 4, none, none, none⟩⟩] : List EmlFile).length ∧
      attemptedFiles
        [⟨"a", some ⟨some "A", some 1, none, none, none⟩⟩,
         ⟨"b", none⟩,
         ⟨"c", some ⟨some "C", some 3, none, none, none⟩⟩,
         ⟨"d", some ⟨some "D", some 4, none, none, none⟩⟩] 2 =
        ([⟨"a", some ⟨some "A", some 1, none, none, none⟩⟩,
         ⟨"b", none⟩,
         ⟨"c", some ⟨some "C", some 3, none, none, none⟩⟩,
         ⟨"d", some ⟨some "D", some 4, none, none, none⟩⟩] : List EmlFile).take k ∧
      parseEmails
        [⟨"a", some ⟨some "A", some 1, none, none, none⟩⟩,
         ⟨"b", none⟩,
         ⟨"c", some ⟨some "C", some 3, none, none, none⟩⟩,
         ⟨"d", some ⟨some "D", some 4, none, none, none⟩⟩] 2 =
        loadRes (([⟨"a", some ⟨some "A", some 1, none, none, none⟩⟩,
         ⟨"b", none⟩,
         ⟨"c", some ⟨some "C", some 3, none, none, none⟩⟩,
         ⟨"d", some ⟨some "D", some 4, none, none, none⟩⟩] : List EmlFile).take k) ∧
      (∀ j, j < k → loadableCount
        (([⟨"a", some ⟨some "A", some 1, none, none, none⟩⟩,
         ⟨"b", none⟩,
         ⟨"c", some ⟨some "C", some 3, none, none, none⟩⟩,
         ⟨"d", some ⟨some "D", some 4, none, none, none⟩⟩] : List EmlFile).take j) < 2)) :=
  ⟨by decide,
   C7_truncation
     [⟨"a", some ⟨some "A", some 1, none, none, none⟩⟩,
      ⟨"b", none⟩,
      ⟨"c", some ⟨some "C", some 3, none, none, none⟩⟩,
      ⟨"d", some ⟨some "D", some 4, none, none, none⟩⟩] 2 (by decide)⟩

open PstUtils PstUtils.pst2pdf in
/-- C9: with no maximum configured, a file that fails to load or parse is
warned about and skipped while every remaining file is still attempted: the
loader attempts all files, returns exactly the records of the successfully
parsed files in discovery order, and logs one warning per failing file. -/
theorem C9_partial_failure_tolerance (files : List EmlFile) :
    parseEmails files 0 =
      files.filterMap (fun f => f.parsed.map (fun m => mkEmail f.path m)) ∧
    attemptedFiles files 0 = files ∧
    warnedFiles files 0 = files.filter (fun f => f.parsed.isNone) := by
  unfold parseEmails attemptedFiles warnedFiles
  rw [parseEmailsLoop_zero]
  exact ⟨by simp [loadRes], rfl, rfl⟩

namespace PstUtils

theorem insertIntoMap_eq (m : List (String × List Email)) (k : String)
    (e : Email) :
    part000.insertIntoMap m k e = pst2pdf.insertIntoMap m k e := by
  induction m with
  | nil => rfl
  | cons p rest ih =>
    obtain ⟨k2, arr⟩ := p
    by_cases h : k2 = k <;>
      simp [part000.insertIntoMap, pst2pdf.insertIntoMap, h, ih]

theorem buildThreadMap_eq (emails : List Email) :
    part000.buildThreadMap emails = pst2pdf.buildThreadMap emails := by
  unfold part000.buildThreadMap pst2pdf.buildThreadMap
  have hfun : (fun (m : List (String × List Email)) (e : Email) =>
        part000.insertIntoMap m (part000.threadKey e) e) =
      (fun (m : List (String × List Email)) (e : Email) =>
        pst2pdf.insertIntoMap m (pst2pdf.threadKey e) e) := by
    funext m e
    rw [insertIntoMap_eq]
    rfl
  rw [hfun]

end PstUtils

open PstUtils in
/-- C10: the two variants' threading cores are extensionally equal: the
embedded `normalizeSubject` and `groupByThread` of `src/pst2pdf/index.js`
and of `src/unnamed/part_000` (whose bodies are textually identical) return
the same results on every input. -/
theorem C10_variant_equivalence :
    (∀ subj : Option String,
      pst2pdf.normalizeSubject subj = part000.normalizeSubject subj) ∧
    (∀ emails : List Email,
      pst2pdf.groupByThread emails = part000.groupByThread emails) :=
  ⟨fun _ => rfl, fun emails => by
    unfold pst2pdf.groupByThread part000.groupByThread
    rw [buildThreadMap_eq]
    rfl⟩
